import Mathlib

/-!
Verification of the log-processing CLI (`src/subcommand.rs`).

Rust strings are modelled as `List Char` (a Rust `&str` is a sequence of
Unicode scalar values; a UTF-8 encoded pattern occurs in a UTF-8 encoded
haystack at byte level iff it occurs at character level, so character-level
infix is a faithful model of `str::contains`).  The filesystem is modelled
as an association list from paths to contents, plus a set of paths on which
writing fails (modelling environmental `fs::write` errors).  Paths are
modelled at the file-name level: the functions under study manipulate only
the final component of a path (`file_stem`, `extension`, `with_file_name`
keep the parent directory untouched).
-/

namespace LogProc

open scoped List

/-- Rust `str::contains`: `pat` occurs in `l` as a contiguous substring. -/
def strContains (l pat : List Char) : Bool := decide (pat <:+: l)

/-- Rust `contains_keyword` (src/subcommand.rs, lines 263-265): true iff some
element of `filters` occurs in `line`. -/
def contains_keyword (line : List Char) (filters : List (List Char)) : Bool :=
  filters.any (fun s => strContains line s)

/-- Rust `filter_keyword` (src/subcommand.rs, lines 267-269): true iff no
element of `filters` occurs in `line`. -/
def filter_keyword (line : List Char) (filters : List (List Char)) : Bool :=
  filters.all (fun s => !strContains line s)

/-- Rust `str::split_inclusive` with pattern the newline character: cuts the
text after every newline, keeping the newline at the end of each segment; an
empty text yields no segments. -/
def splitInclusiveNl : List Char → List (List Char)
  | [] => []
  | c :: rest =>
    if c = '\n' then ['\n'] :: splitInclusiveNl rest
    else
      match splitInclusiveNl rest with
      | [] => [[c]]
      | seg :: segs => (c :: seg) :: segs

/-- Per-segment cleanup performed by Rust `str::lines`: strip one trailing
newline, and when a newline was stripped also strip one trailing carriage
return. -/
def stripNlCr (seg : List Char) : List Char :=
  if seg.getLast? = some '\n' then
    if seg.dropLast.getLast? = some '\r' then seg.dropLast.dropLast
    else seg.dropLast
  else seg

/-- Rust `str::lines`: newline-delimited segments, each with its terminator
(and a preceding carriage return) removed; no trailing empty line. -/
def rlines (content : List Char) : List (List Char) :=
  (splitInclusiveNl content).map stripNlCr

/-- Selected lines of filter mode (src/subcommand.rs, lines 235-243): the
lines of `content` kept by the closure of `remove_log_file_cpu_mem_info` —
`contains_keyword` when `keep`, `filter_keyword` otherwise. -/
def selectedLines (content : List Char) (filters : List (List Char)) (keep : Bool) :
    List (List Char) :=
  (rlines content).filter
    (fun s => if keep then contains_keyword s filters else filter_keyword s filters)

/-- Output text of filter mode (src/subcommand.rs, line 244-245): each selected
line formatted with a trailing newline, all concatenated. -/
def removeOutput (content : List Char) (filters : List (List Char)) (keep : Bool) :
    List Char :=
  ((selectedLines content filters keep).map (fun s => s ++ ['\n'])).flatten

-- Helper lemmas about the matcher.

theorem strContains_eq_true_iff (l pat : List Char) :
    strContains l pat = true ↔ pat <:+: l := by
  simp [strContains]

theorem contains_keyword_eq_true_iff (line : List Char) (filters : List (List Char)) :
    contains_keyword line filters = true ↔ ∃ k ∈ filters, k <:+: line := by
  simp [contains_keyword, List.any_eq_true, strContains_eq_true_iff]

theorem filter_keyword_eq_true_iff (line : List Char) (filters : List (List Char)) :
    filter_keyword line filters = true ↔ ∀ k ∈ filters, ¬ (k <:+: line) := by
  simp [filter_keyword, List.all_eq_true, strContains]

theorem filter_keyword_eq_not_contains (line : List Char) (filters : List (List Char)) :
    filter_keyword line filters = !(contains_keyword line filters) := by
  induction filters with
  | nil => rfl
  | cons k t ih =>
    simp only [filter_keyword, contains_keyword, List.all_cons, List.any_cons,
      Bool.not_or] at ih ⊢
    rw [ih]

/-- Claim C1: for every line and keyword set, `filter_keyword` (the NoneOf
policy) returns the logical negation of `contains_keyword` (the AnyOf
policy): a line is kept under NoneOf exactly when it contains no keyword. -/
theorem c1_none_is_not_any (line : List Char) (filters : List (List Char)) :
    filter_keyword line filters = !(contains_keyword line filters) :=
  filter_keyword_eq_not_contains line filters

example : rlines "a\nb".toList = ["a".toList, "b".toList] := by decide
example : rlines "a\n".toList = ["a".toList] := by decide
example : rlines [] = [] := by decide

-- Helper lemmas about the selected lines of filter mode.

theorem bool_eq_of_iff {a b : Bool} (h : a = true ↔ b = true) : a = b := by
  cases a <;> cases b <;> simp_all

theorem selectedLines_false (content : List Char) (filters : List (List Char)) :
    selectedLines content filters false
      = (rlines content).filter (fun s => filter_keyword s filters) := by
  simp [selectedLines]

theorem selectedLines_true (content : List Char) (filters : List (List Char)) :
    selectedLines content filters true
      = (rlines content).filter (fun s => contains_keyword s filters) := by
  simp [selectedLines]

theorem selectedLines_false_semantic (content : List Char) (K : List (List Char)) :
    selectedLines content K false
      = (rlines content).filter (fun l => decide (∀ k ∈ K, ¬ (k <:+: l))) := by
  rw [selectedLines_false]
  refine List.filter_congr (fun l _ => bool_eq_of_iff ?_)
  rw [filter_keyword_eq_true_iff, decide_eq_true_iff]

theorem selectedLines_true_semantic (content : List Char) (K : List (List Char)) :
    selectedLines content K true
      = (rlines content).filter (fun l => decide (∃ k ∈ K, k <:+: l)) := by
  rw [selectedLines_true]
  refine List.filter_congr (fun l _ => bool_eq_of_iff ?_)
  rw [contains_keyword_eq_true_iff, decide_eq_true_iff]

theorem selectedLines_count_partition (content : List Char) (K : List (List Char))
    (l : List Char) :
    (selectedLines content K false).count l + (selectedLines content K true).count l
      = (rlines content).count l := by
  rw [selectedLines_false, selectedLines_true]
  have hswap : (rlines content).filter (fun s => contains_keyword s K)
      = (rlines content).filter (fun s => !(filter_keyword s K)) := by
    refine List.filter_congr (fun s _ => ?_)
    rw [filter_keyword_eq_not_contains, Bool.not_not]
  rw [hswap]
  rw [List.count_eq_countP, List.count_eq_countP, List.count_eq_countP]
  have hp := (List.filter_append_perm (fun s => filter_keyword s K)
    (rlines content)).countP_eq (fun x => x == l)
  rw [List.countP_append] at hp
  exact hp

/-- Claim C2: filter-mode round trip — for every file content and keyword set
K, the lines selected with keep=false are exactly the lines of the file that
contain no element of K (in order), the lines selected with keep=true are
exactly the complement subset (the lines containing some element of K), and
every line of the file appears in exactly one of the two outputs (counted
with multiplicity). -/
theorem c2_filter_round_trip (content : List Char) (K : List (List Char)) :
    selectedLines content K false
        = (rlines content).filter (fun l => decide (∀ k ∈ K, ¬ (k <:+: l)))
      ∧ selectedLines content K true
        = (rlines content).filter (fun l => decide (∃ k ∈ K, k <:+: l))
      ∧ ∀ l : List Char,
          (selectedLines content K false).count l + (selectedLines content K true).count l
            = (rlines content).count l :=
  ⟨selectedLines_false_semantic content K, selectedLines_true_semantic content K,
    selectedLines_count_partition content K⟩

-- Helper lemmas for monotonicity (claim C9).

theorem contains_keyword_mono {line : List Char} {K K' : List (List Char)}
    (hsub : K <+ K') (h : contains_keyword line K = true) :
    contains_keyword line K' = true := by
  rw [contains_keyword_eq_true_iff] at h ⊢
  obtain ⟨k, hk, hinf⟩ := h
  exact ⟨k, hsub.subset hk, hinf⟩

theorem selectedLines_anti {content : List Char} {K K' : List (List Char)}
    (hsub : K <+ K') :
    selectedLines content K' false <+ selectedLines content K false := by
  rw [selectedLines_false, selectedLines_false]
  refine List.monotone_filter_right (rlines content) (fun l h => ?_)
  rw [filter_keyword_eq_true_iff] at h ⊢
  exact fun k hk => h k (hsub.subset hk)

theorem contains_keyword_mem_invariant (line : List Char) {K K' : List (List Char)}
    (h : ∀ k, k ∈ K ↔ k ∈ K') :
    contains_keyword line K = contains_keyword line K' := by
  refine bool_eq_of_iff ?_
  rw [contains_keyword_eq_true_iff, contains_keyword_eq_true_iff]
  constructor
  · rintro ⟨k, hk, hinf⟩; exact ⟨k, (h k).mp hk, hinf⟩
  · rintro ⟨k, hk, hinf⟩; exact ⟨k, (h k).mpr hk, hinf⟩

/-- Claim C9: matching is monotone in the keyword set — if K is a sublist of
K' then any line matching some keyword of K matches some keyword of K'; the
keep=false output for K' is a sublist (hence sub-multiset, witnessed by the
count inequality) of the keep=false output for K; and the classification
depends only on which keywords are present, so duplicate keywords change
nothing. -/
theorem c9_matching_monotone :
    (∀ (line : List Char) (K K' : List (List Char)), K <+ K' →
        contains_keyword line K = true → contains_keyword line K' = true)
      ∧ (∀ (content : List Char) (K K' : List (List Char)), K <+ K' →
          selectedLines content K' false <+ selectedLines content K false
            ∧ ∀ l : List Char,
                (selectedLines content K' false).count l
                  ≤ (selectedLines content K false).count l)
      ∧ (∀ (line : List Char) (K K' : List (List Char)), (∀ k, k ∈ K ↔ k ∈ K') →
          contains_keyword line K = contains_keyword line K') :=
  ⟨fun _ _ _ hsub h => contains_keyword_mono hsub h,
    fun _ _ _ hsub =>
      ⟨selectedLines_anti hsub, fun l => (selectedLines_anti hsub).count_le l⟩,
    fun line _ _ h => contains_keyword_mem_invariant line h⟩

/-- Closed witness for claim C9 at concrete inputs. -/
theorem c9_matching_monotone_witness :
    contains_keyword "x tid: 1".toList ["tid:".toList, "pid:".toList] = true
      ∧ selectedLines "x tid: 1\nok\n".toList ["tid:".toList, "pid:".toList] false
          <+ selectedLines "x tid: 1\nok\n".toList ["tid:".toList] false
      ∧ contains_keyword "x tid: 1".toList ["tid:".toList, "tid:".toList]
          = contains_keyword "x tid: 1".toList ["tid:".toList] :=
  ⟨c9_matching_monotone.1 "x tid: 1".toList ["tid:".toList] ["tid:".toList, "pid:".toList]
      (by decide) (by decide),
    (c9_matching_monotone.2.1 "x tid: 1\nok\n".toList ["tid:".toList]
      ["tid:".toList, "pid:".toList] (by decide)).1,
    c9_matching_monotone.2.2 "x tid: 1".toList ["tid:".toList, "tid:".toList]
      ["tid:".toList] (by intro k; simp)⟩

-- Output file naming (src/subcommand.rs, lines 247-255).

/-- Marker inserted into output file names by filter mode and excluded by the
directory walk: the string literal appearing at lines 228 and 251 of
src/subcommand.rs. -/
def filteredMarker : List Char := "_filtered".toList

/-- Helper for the Rust `split_file_at_dot`: scanning a REVERSED file name,
return the characters before the first dot (the reversed extension) and the
characters after it (the reversed stem), or `none` when no dot occurs. -/
def splitRevAtDot : List Char → Option (List Char × List Char)
  | [] => none
  | c :: rest =>
    if c = '.' then some ([], rest)
    else (splitRevAtDot rest).map (fun pr => (c :: pr.1, pr.2))

/-- Rust `split_file_at_dot` (the common core of `Path::file_stem` and
`Path::extension`), at the file-name level: the name `..` has no extension; a
name whose only dot is a leading dot has no extension; otherwise the name is
split at its last dot. -/
def splitFileAtDot (name : List Char) : List Char × Option (List Char) :=
  if name = ['.', '.'] then (name, none)
  else
    match splitRevAtDot name.reverse with
    | none => (name, none)
    | some (extRev, stemRev) =>
      if stemRev = [] then (name, none)
      else (stemRev.reverse, some extRev.reverse)

/-- Output file name of filter mode (src/subcommand.rs, lines 248-255):
`stem ++ "_filtered"`, then a dot and the extension when the extension is
non-empty (`extension().unwrap_or_default()` makes a missing extension the
empty string, and nothing is appended for an empty one). -/
def outputFileName (name : List Char) : List Char :=
  let sd := splitFileAtDot name
  let ext := sd.2.getD []
  sd.1 ++ filteredMarker ++ (if ext = [] then [] else ['.']) ++ ext

example : outputFileName "a.log".toList = "a_filtered.log".toList := by decide
example : outputFileName "b".toList = "b_filtered".toList := by decide
example : outputFileName "a.".toList = "a_filtered".toList := by decide
example : outputFileName ".gitignore".toList = ".gitignore_filtered".toList := by decide

theorem splitRevAtDot_of_not_mem {l : List Char} (h : ('.' : Char) ∉ l) :
    splitRevAtDot l = none := by
  induction l with
  | nil => rfl
  | cons c rest ih =>
    have hc : c ≠ '.' := fun he => h (he ▸ List.mem_cons_self c rest)
    have hrest : ('.' : Char) ∉ rest := fun hm => h (List.mem_cons_of_mem c hm)
    simp [splitRevAtDot, hc, ih hrest]

theorem splitRevAtDot_append {pre : List Char} (rest : List Char)
    (h : ('.' : Char) ∉ pre) :
    splitRevAtDot (pre ++ '.' :: rest) = some (pre, rest) := by
  induction pre with
  | nil => simp [splitRevAtDot]
  | cons c t ih =>
    have hc : c ≠ '.' := fun he => h (he ▸ List.mem_cons_self c t)
    have ht : ('.' : Char) ∉ t := fun hm => h (List.mem_cons_of_mem c hm)
    simp [splitRevAtDot, hc, ih ht]

theorem outputFileName_with_ext {stem ext : List Char} (hst : stem ≠ [])
    (hex : ext ≠ []) (hdot : ('.' : Char) ∉ ext) :
    outputFileName (stem ++ '.' :: ext) = stem ++ filteredMarker ++ '.' :: ext := by
  have hne : stem ++ '.' :: ext ≠ ['.', '.'] := by
    intro h
    have hlen := congrArg List.length h
    have h1 : 0 < stem.length := List.length_pos.mpr hst
    have h2 : 0 < ext.length := List.length_pos.mpr hex
    simp [List.length_append] at hlen
    omega
  have hrev : (stem ++ '.' :: ext).reverse = ext.reverse ++ '.' :: stem.reverse := by
    simp
  have hdotrev : ('.' : Char) ∉ ext.reverse := by
    simpa using hdot
  have hsplit : splitRevAtDot (stem ++ '.' :: ext).reverse
      = some (ext.reverse, stem.reverse) := by
    rw [hrev]
    exact splitRevAtDot_append stem.reverse hdotrev
  have hstrev : stem.reverse ≠ [] := by
    simpa using hst
  simp only [outputFileName, splitFileAtDot, hne, if_false, hsplit, hstrev,
    List.reverse_reverse, hex]
  simp [hex]

theorem outputFileName_no_ext {name : List Char} (hdot : ('.' : Char) ∉ name) :
    outputFileName name = name ++ filteredMarker := by
  have hne : name ≠ ['.', '.'] := by
    intro h
    exact hdot (h ▸ List.mem_cons_self '.' ['.'])
  have hdotrev : ('.' : Char) ∉ name.reverse := by
    simpa using hdot
  simp [outputFileName, splitFileAtDot, hne, splitRevAtDot_of_not_mem hdotrev]

/-- Claim C3: the output file name is derived deterministically by inserting
the marker before the extension — a name of the form `stem.ext` (non-empty
stem, non-empty dot-free extension) becomes `stem_filtered.ext`, a name
containing no dot becomes `name_filtered` with no trailing dot, and equal
inputs give equal outputs. -/
theorem c3_output_naming :
    (∀ stem ext : List Char, stem ≠ [] → ext ≠ [] → ('.' : Char) ∉ ext →
        outputFileName (stem ++ '.' :: ext) = stem ++ filteredMarker ++ '.' :: ext)
      ∧ (∀ name : List Char, ('.' : Char) ∉ name →
          outputFileName name = name ++ filteredMarker)
      ∧ (∀ n m : List Char, n = m → outputFileName n = outputFileName m) :=
  ⟨fun _ _ hst hex hdot => outputFileName_with_ext hst hex hdot,
    fun _ hdot => outputFileName_no_ext hdot,
    fun _ _ h => h ▸ rfl⟩

/-- Closed witness for claim C3: the spec's scenario, `a.log` and `b`. -/
theorem c3_output_naming_witness :
    outputFileName ("a".toList ++ '.' :: "log".toList)
        = "a".toList ++ filteredMarker ++ '.' :: "log".toList
      ∧ outputFileName "b".toList = "b".toList ++ filteredMarker :=
  ⟨c3_output_naming.1 "a".toList "log".toList (by decide) (by decide) (by decide),
    c3_output_naming.2.1 "b".toList (by decide)⟩

-- Filesystem model and the per-file operations.

/-- Filesystem model: `files` maps each readable path to its text (a path
absent from `files` cannot be read, modelling `fs::read_to_string` errors);
`wfail` lists the paths on which `fs::write` fails (an environmental
condition such as a permission error). Paths are file names, see the header
comment. -/
structure FS where
  files : List (List Char × List Char)
  wfail : List (List Char)
deriving DecidableEq

/-- Rust `fs::read_to_string` on the model: the content, or `none` on
failure. -/
def readFS (fs : FS) (p : List Char) : Option (List Char) := fs.files.lookup p

/-- Rust `fs::write` on the model (for a path not in `wfail`): create or
overwrite `p` with content `c`. -/
def writeFS (fs : FS) (p c : List Char) : FS :=
  ⟨(p, c) :: fs.files.filter (fun e => !(e.1 == p)), fs.wfail⟩

/-- Rust `DEFAULT_FILTERS` (src/subcommand.rs, lines 14-20). -/
def DEFAULT_FILTERS : List (List Char) :=
  ["tid:".toList, "pid:".toList, "cpu usage".toList]

/-- Filter resolution in `process_check_line` / `process_remove_line`
(src/subcommand.rs, lines 126 and 149): the supplied filters, or
`DEFAULT_FILTERS` when omitted. -/
def resolvedFilters (o : Option (List (List Char))) : List (List Char) :=
  o.getD DEFAULT_FILTERS

/-- Rust `check_log_file_cpu_mem_info` (src/subcommand.rs, lines 193-207):
read the file, count the lines containing a keyword, report the count; the
filesystem is returned to express that nothing is written. -/
def check_log_file_cpu_mem_info (fs : FS) (p : List Char)
    (filters : List (List Char)) : Except Unit (Nat × FS) :=
  match readFS fs p with
  | none => Except.error ()
  | some content =>
    Except.ok (((rlines content).filter (fun s => contains_keyword s filters)).length, fs)

/-- Rust `remove_log_file_cpu_mem_info` (src/subcommand.rs, lines 233-261):
read the file, select lines by the keep policy, join them with trailing
newlines, and write the result under the derived output name. -/
def remove_log_file_cpu_mem_info (fs : FS) (p : List Char)
    (filters : List (List Char)) (keep : Bool) : Except Unit FS :=
  match readFS fs p with
  | none => Except.error ()
  | some content =>
    let np := outputFileName p
    if np ∈ fs.wfail then Except.error ()
    else Except.ok (writeFS fs np (removeOutput content filters keep))

/-- Rust `remove_log_dir_cpu_mem_infos` (src/subcommand.rs, lines 209-218):
each entry is processed independently from the same initial filesystem (the
parallel for_each); an error outcome models the caught-and-printed per-file
failure log carrying that file's path and reason. -/
def remove_log_dir_cpu_mem_infos (fs : FS) (entries : List (List Char))
    (filters : List (List Char)) (keep : Bool) :
    List ((List Char) × Except Unit FS) :=
  entries.map (fun p => (p, remove_log_file_cpu_mem_info fs p filters keep))

/-- Resolved target of `process_remove_line`: a single file or a directory
with its walked entries. -/
inductive Target where
  | file : List Char → Target
  | dir : List (List Char) → Target

/-- Rust `process_remove_line` (src/subcommand.rs, lines 137-159), after path
resolution: a directory target runs the batch (never fatal); a single-file
target propagates the per-file error. The ok value collects the per-file
outcomes. -/
def process_remove_line (fs : FS) (t : Target) (filters : List (List Char))
    (keep : Bool) : Except Unit (List ((List Char) × Except Unit FS)) :=
  match t with
  | Target.dir entries => Except.ok (remove_log_dir_cpu_mem_infos fs entries filters keep)
  | Target.file p =>
    (remove_log_file_cpu_mem_info fs p filters keep).map (fun fs2 => [(p, Except.ok fs2)])

theorem contains_keyword_eq_decide (l : List Char) (K : List (List Char)) :
    contains_keyword l K = decide (∃ k ∈ K, k <:+: l) :=
  bool_eq_of_iff (by rw [contains_keyword_eq_true_iff, decide_eq_true_iff])

/-- Claim C4: check mode reports, for a readable file, exactly the number of
newline-delimited lines of its text containing some keyword, and leaves the
filesystem unchanged; when the caller omits filters the keyword set is
exactly tid:, pid:, cpu usage. -/
theorem c4_check_mode :
    (∀ (fs : FS) (p content : List Char) (filters : List (List Char)),
        readFS fs p = some content →
        check_log_file_cpu_mem_info fs p filters
          = Except.ok
              (((rlines content).filter (fun l => decide (∃ k ∈ filters, k <:+: l))).length,
                fs))
      ∧ resolvedFilters none = ["tid:".toList, "pid:".toList, "cpu usage".toList] := by
  refine ⟨?_, rfl⟩
  intro fs p content filters h
  simp only [check_log_file_cpu_mem_info, h, contains_keyword_eq_decide]

/-- Closed witness for claim C4 on a concrete two-line file. -/
theorem c4_check_mode_witness :
    check_log_file_cpu_mem_info ⟨[("a".toList, "x tid: 1\nok\n".toList)], []⟩
        "a".toList DEFAULT_FILTERS
      = Except.ok
          (((rlines "x tid: 1\nok\n".toList).filter
              (fun l => decide (∃ k ∈ DEFAULT_FILTERS, k <:+: l))).length,
            ⟨[("a".toList, "x tid: 1\nok\n".toList)], []⟩) :=
  c4_check_mode.1 ⟨[("a".toList, "x tid: 1\nok\n".toList)], []⟩ "a".toList
    "x tid: 1\nok\n".toList DEFAULT_FILTERS (by decide)

/-- Claim C5: with an empty keyword set, no line matches any keyword and
every line matches none of them; check mode therefore reports zero for any
readable file, and filter mode with keep=false keeps every line. -/
theorem c5_empty_keyword_set :
    ∀ (line content : List Char) (fs : FS) (p : List Char),
      contains_keyword line [] = false
        ∧ filter_keyword line [] = true
        ∧ (readFS fs p = some content →
            check_log_file_cpu_mem_info fs p [] = Except.ok (0, fs))
        ∧ selectedLines content [] false = rlines content := by
  intro line content fs p
  refine ⟨rfl, rfl, ?_, ?_⟩
  · intro h
    simp only [check_log_file_cpu_mem_info, h]
    simp [contains_keyword]
  · rw [selectedLines_false]
    simp [filter_keyword]

/-- Closed witness for claim C5 on a concrete file. -/
theorem c5_empty_keyword_set_witness :
    contains_keyword "x tid: 1".toList [] = false
      ∧ check_log_file_cpu_mem_info ⟨[("p".toList, "y\nz".toList)], []⟩ "p".toList []
          = Except.ok (0, ⟨[("p".toList, "y\nz".toList)], []⟩)
      ∧ selectedLines "y\nz".toList [] false = rlines "y\nz".toList :=
  ⟨(c5_empty_keyword_set "x tid: 1".toList "y\nz".toList
      ⟨[("p".toList, "y\nz".toList)], []⟩ "p".toList).1,
    (c5_empty_keyword_set "x tid: 1".toList "y\nz".toList
      ⟨[("p".toList, "y\nz".toList)], []⟩ "p".toList).2.2.1 (by decide),
    (c5_empty_keyword_set "x tid: 1".toList "y\nz".toList
      ⟨[("p".toList, "y\nz".toList)], []⟩ "p".toList).2.2.2⟩

/-- Claim C10: nothing rejects an empty keyword; if the empty string is among
the keywords, every line matches any keyword, so check mode counts every line
of a readable file and filter mode with keep=false writes empty output
whatever the content. -/
theorem c10_empty_string_keyword :
    ∀ (filters : List (List Char)) (line content : List Char) (fs : FS) (p : List Char),
      ([] : List Char) ∈ filters →
      contains_keyword line filters = true
        ∧ (readFS fs p = some content →
            check_log_file_cpu_mem_info fs p filters
              = Except.ok ((rlines content).length, fs))
        ∧ removeOutput content filters false = [] := by
  intro filters line content fs p hmem
  have hall : ∀ l : List Char, contains_keyword l filters = true := by
    intro l
    rw [contains_keyword_eq_true_iff]
    exact ⟨[], hmem, List.nil_infix⟩
  have hsel : selectedLines content filters false = [] := by
    rw [selectedLines_false]
    refine List.filter_eq_nil_iff.mpr (fun a _ => ?_)
    rw [filter_keyword_eq_not_contains, hall a]
    simp
  refine ⟨hall line, ?_, ?_⟩
  · intro h
    simp only [check_log_file_cpu_mem_info, h]
    rw [List.filter_eq_self.mpr (fun a _ => hall a)]
  · rw [removeOutput, hsel]
    rfl

/-- Closed witness for claim C10: an empty-string keyword set on a concrete
file. -/
theorem c10_empty_string_keyword_witness :
    contains_keyword "ok".toList [[]] = true
      ∧ check_log_file_cpu_mem_info ⟨[("p".toList, "y\nz".toList)], ["q".toList]⟩
          "p".toList [[]]
          = Except.ok ((rlines "y\nz".toList).length,
              ⟨[("p".toList, "y\nz".toList)], ["q".toList]⟩)
      ∧ removeOutput "y\nz".toList [[]] false = [] :=
  ⟨(c10_empty_string_keyword [[]] "ok".toList "y\nz".toList
      ⟨[("p".toList, "y\nz".toList)], ["q".toList]⟩ "p".toList (by decide)).1,
    (c10_empty_string_keyword [[]] "ok".toList "y\nz".toList
      ⟨[("p".toList, "y\nz".toList)], ["q".toList]⟩ "p".toList (by decide)).2.1 (by decide),
    (c10_empty_string_keyword [[]] "ok".toList "y\nz".toList
      ⟨[("p".toList, "y\nz".toList)], ["q".toList]⟩ "p".toList (by decide)).2.2⟩

-- Output format of filter mode (claim C6).

theorem flatten_map_newline (l : List (List Char)) :
    (l.map (fun s => s ++ ['\n'])).flatten
      = l.foldr (fun s acc => s ++ '\n' :: acc) [] := by
  induction l with
  | nil => rfl
  | cons a t ih => simp [ih]

theorem foldr_newline_eq_concat :
    ∀ {l : List (List Char)}, l ≠ [] →
      ∃ t, l.foldr (fun s acc => s ++ '\n' :: acc) [] = t ++ ['\n'] := by
  intro l
  induction l with
  | nil => intro h; cases h rfl
  | cons a t ih =>
    intro _
    cases t with
    | nil => exact ⟨a, rfl⟩
    | cons b t2 =>
      obtain ⟨t3, ht3⟩ := ih (by simp)
      refine ⟨a ++ '\n' :: t3, ?_⟩
      rw [List.foldr_cons, ht3]
      simp

/-- Claim C6: the filter-mode output text is the concatenation of the
selected lines each followed by a newline (so a non-empty selection always
ends in a newline, even when the original file lacked one), and a file with
zero lines produces empty output. -/
theorem c6_output_format :
    ∀ (content : List Char) (filters : List (List Char)) (keep : Bool),
      removeOutput content filters keep
          = (selectedLines content filters keep).foldr (fun s acc => s ++ '\n' :: acc) []
        ∧ (rlines content = [] → removeOutput content filters keep = [])
        ∧ (selectedLines content filters keep ≠ [] →
            (removeOutput content filters keep).getLast? = some '\n') := by
  intro content filters keep
  refine ⟨flatten_map_newline _, ?_, ?_⟩
  · intro h
    rw [removeOutput, selectedLines, h]
    rfl
  · intro h
    obtain ⟨t, ht⟩ := foldr_newline_eq_concat h
    rw [removeOutput, flatten_map_newline, ht, List.getLast?_concat]

/-- Closed witness for claim C6 on a concrete file with no trailing
newline. -/
theorem c6_output_format_witness :
    removeOutput [] DEFAULT_FILTERS false = []
      ∧ (removeOutput "ok".toList DEFAULT_FILTERS false).getLast? = some '\n' :=
  ⟨(c6_output_format [] DEFAULT_FILTERS false).2.1 (by decide),
    (c6_output_format "ok".toList DEFAULT_FILTERS false).2.2 (by decide)⟩

-- Directory traversal (claim C7).

/-- Model of a `walkdir::DirEntry`: its file name (`none` models a name that
is not valid Unicode, where `to_str` fails) and whether the entry is a
regular file. -/
structure RDirEntry where
  fileName : Option (List Char)
  isRegularFile : Bool
deriving DecidableEq

/-- Rust `get_entries` (src/subcommand.rs, lines 220-231). The walk input is
the sequence produced by the recursive descent, with `none` for an erroneous
(e.g. unreadable) entry — dropped by `filter_map(ok)`; then only regular
files are kept, and only those whose name converts to Unicode and does not
contain the marker. -/
def get_entries (walk : List (Option RDirEntry)) : List RDirEntry :=
  ((walk.filterMap id).filter (fun e => e.isRegularFile)).filter
    (fun e =>
      match e.fileName with
      | some s => !strContains s filteredMarker
      | none => false)

/-- Claim C7: every entry produced by the directory walk is a regular file
(directories and erroneous entries are dropped) and its name does not contain
the marker, so previously generated filtered output is never reprocessed. -/
theorem c7_directory_walker :
    ∀ (walk : List (Option RDirEntry)) (e : RDirEntry), e ∈ get_entries walk →
      e.isRegularFile = true
        ∧ ∃ s, e.fileName = some s ∧ ¬ (filteredMarker <:+: s) := by
  intro walk e he
  rw [get_entries] at he
  have h2 := List.mem_filter.mp he
  have h1 := List.mem_filter.mp h2.1
  refine ⟨h1.2, ?_⟩
  cases hf : e.fileName with
  | none =>
    have := h2.2
    rw [hf] at this
    cases this
  | some s =>
    refine ⟨s, rfl, ?_⟩
    have hmark := h2.2
    rw [hf] at hmark
    simpa [strContains] using hmark

/-- Closed witness for claim C7: a walk containing a regular log file, an
erroneous entry, an already-filtered file and a directory keeps only the
first. -/
theorem c7_directory_walker_witness :
    (⟨some "a.log".toList, true⟩ : RDirEntry).isRegularFile = true
      ∧ ∃ s, (⟨some "a.log".toList, true⟩ : RDirEntry).fileName = some s
          ∧ ¬ (filteredMarker <:+: s) :=
  c7_directory_walker
    [some ⟨some "a.log".toList, true⟩, none,
      some ⟨some "a_filtered.log".toList, true⟩, some ⟨some "d".toList, false⟩]
    ⟨some "a.log".toList, true⟩ (by decide)

-- Batch processing and error isolation (claim C8).

deriving instance DecidableEq for Except

/-- Claim C8: a directory batch pairs every entry with its own outcome,
computed from the initial filesystem and that entry alone — a failure on one
file is recorded (with that file's path) and does not prevent any other file
from being processed, and the batch itself never returns a fatal error; in
contrast a single-file target propagates the per-file IoError to the
caller. -/
theorem c8_batch_error_isolation :
    (∀ (fs : FS) (entries : List (List Char)) (filters : List (List Char)) (keep : Bool),
        (remove_log_dir_cpu_mem_infos fs entries filters keep).length = entries.length
          ∧ process_remove_line fs (Target.dir entries) filters keep
              = Except.ok (remove_log_dir_cpu_mem_infos fs entries filters keep))
      ∧ (∀ (fs : FS) (entries : List (List Char)) (filters : List (List Char))
            (keep : Bool) (p : List Char), p ∈ entries →
          (p, remove_log_file_cpu_mem_info fs p filters keep)
            ∈ remove_log_dir_cpu_mem_infos fs entries filters keep)
      ∧ (∀ (fs : FS) (p : List Char) (filters : List (List Char)) (keep : Bool)
            (e : Unit),
          remove_log_file_cpu_mem_info fs p filters keep = Except.error e →
          process_remove_line fs (Target.file p) filters keep = Except.error e) := by
  refine ⟨?_, ?_, ?_⟩
  · intro fs entries filters keep
    exact ⟨by simp [remove_log_dir_cpu_mem_infos], rfl⟩
  · intro fs entries filters keep p hp
    exact List.mem_map.mpr ⟨p, hp, rfl⟩
  · intro fs p filters keep e h
    simp only [process_remove_line, h]
    rfl

/-- Closed witness for claim C8: a batch over a readable file and an
unreadable one still carries the unreadable file's outcome, and the same
unreadable path as a single-file target is a fatal error. -/
theorem c8_batch_error_isolation_witness :
    ("b".toList,
        remove_log_file_cpu_mem_info ⟨[("a".toList, "tid: x\n".toList)], []⟩
          "b".toList DEFAULT_FILTERS false)
      ∈ remove_log_dir_cpu_mem_infos ⟨[("a".toList, "tid: x\n".toList)], []⟩
          ["a".toList, "b".toList] DEFAULT_FILTERS false
      ∧ process_remove_line ⟨[("a".toList, "tid: x\n".toList)], []⟩
          (Target.file "b".toList) DEFAULT_FILTERS false = Except.error () :=
  ⟨c8_batch_error_isolation.2.1 ⟨[("a".toList, "tid: x\n".toList)], []⟩
      ["a".toList, "b".toList] DEFAULT_FILTERS false "b".toList (by decide),
    c8_batch_error_isolation.2.2 ⟨[("a".toList, "tid: x\n".toList)], []⟩
      "b".toList DEFAULT_FILTERS false () (by decide)⟩

end LogProc
